import Mathlib

/-!
Shallow embedding of the COFFEE-mode optimisation pass of `tsfc`
(`tsfc/coffee_mode.py`): the monomial data model, the cost model
(`index_extent`), the branch-and-bound hitting-set search
(`find_optimal_atomics`), the factorisation rewriter (`factorise_atomics`),
and the drivers (`optimise_monomials`, `optimise_monomial_sum`,
`optimise_expressions`, `monomial_sum_to_expression`).

The GEM expression graph and its helpers (`gem.gem`, `gem.optimise`,
`gem.refactorise`, `gem.utils`) are external collaborators of this
repository; they are modelled from the spec's description of their
interface (free index sets, a failure marker, sum/product/index-sum node
constructors, the multiplicative identity, an order-preserving `groupby`).

Python `assert` failures and the (impossible in practice, see the fuel
bounds chosen by the wrappers) exhaustion of recursion fuel are made
explicit with an `Except OptErr` result.
-/

namespace Coffee

/-- An index: an opaque handle with a fixed finite extent. -/
structure Index where
  id : Nat
  extent : Nat
deriving DecidableEq, Repr

/-- Model of the GEM expression graph, restricted to what the optimisation
core inspects or builds: leaf atoms carrying a free-index set, the `Failure`
marker, `Sum`/`Product` nodes, `IndexSum` nodes, the literal `one` (the
multiplicative identity) and a `zero` (empty sum). -/
inductive GExpr where
  | one : GExpr
  | zero : GExpr
  | atomE : Nat → List Index → GExpr
  | failureE : GExpr
  | sumE : GExpr → GExpr → GExpr
  | productE : GExpr → GExpr → GExpr
  | indexSumE : GExpr → List Index → GExpr
deriving DecidableEq, Repr

/-- Free indices of a GEM expression: leaves carry their own set, `Sum` and
`Product` take the union of their children's, `IndexSum` removes the summed
indices.  (Modelled from the spec: the core only ever reads membership in
this set and the extents of its members.) -/
def free_indices : GExpr → List Index
  | .one => []
  | .zero => []
  | .atomE _ fi => fi
  | .failureE => []
  | .sumE a b => (free_indices a ++ free_indices b).dedup
  | .productE a b => (free_indices a ++ free_indices b).dedup
  | .indexSumE body ids => (free_indices body).filter (fun i => i ∉ ids)

/-- Whether the `Failure` marker occurs anywhere in the DAG (the effect of
scanning `gem.node.traversal` for a `Failure` instance). -/
def hasFailure : GExpr → Bool
  | .one => false
  | .zero => false
  | .atomE _ _ => false
  | .failureE => true
  | .sumE a b => hasFailure a || hasFailure b
  | .productE a b => hasFailure a || hasFailure b
  | .indexSumE body _ => hasFailure body

/-- A monomial `(sum_indices, atomics, rest)`, as in `gem.refactorise`. -/
structure Monomial where
  sum_indices : List Index
  atomics : List GExpr
  rest : GExpr
deriving DecidableEq, Repr

instance : Inhabited Monomial := ⟨⟨[], [], .one⟩⟩

/-- First-seen-order de-duplication (the effect of
`OrderedDict.fromkeys` / of grouping keys in insertion order). -/
def dedupF {α : Type} [DecidableEq α] (l : List α) : List α :=
  l.foldl (fun acc x => if x ∈ acc then acc else acc ++ [x]) []

/-- `gem.utils.groupby`: groups elements by key; keys appear in first-seen
order and each group keeps the input order of its members. -/
def groupbyF {α β : Type} [DecidableEq α] [DecidableEq β]
    (key : α → β) (l : List α) : List (β × List α) :=
  (dedupF (l.map key)).map (fun k => (k, l.filter (fun x => key x = k)))

/-- `index_extent(factor, argument_indices)`: product of the extents of the
free indices of `factor` that belong to the argument indices
(`numpy.prod` of an empty list is 1). -/
def index_extent (factor : GExpr) (argument_indices : List Index) : Nat :=
  ((free_indices factor).filter (fun i => i ∈ argument_indices)).foldr
    (fun i acc => i.extent * acc) 1

/-- Modelled from the spec: the graph-construction collaborator's sum-node
builder, folding the summands left (`reduce(Sum, ...)`); the empty sum is
`zero`. -/
def make_sum : List GExpr → GExpr
  | [] => .zero
  | x :: xs => xs.foldl .sumE x

/-- Modelled from the spec: the graph-construction collaborator's
product-node builder; multiplicative-identity factors are dropped (the spec's
scenario reassembles `(A, B+C, 1)` as `A*(B+C)`), the remaining factors are
folded left. -/
def make_product (factors : List GExpr) : GExpr :=
  match factors.filter (fun f => f ≠ .one) with
  | [] => .one
  | x :: xs => xs.foldl .productE x

/-- Modelled from the spec: the `IndexSum` node constructor, which returns
the summand unchanged when there are no indices to sum over. -/
def indexSumC (body : GExpr) (ids : List Index) : GExpr :=
  if ids = [] then body else .indexSumE body ids

/-- `monomial_sum_to_expression`: group monomials by their `sum_indices`
as a set, build a product per monomial from its atomics and rest, sum the
products of a group, wrap in an `IndexSum` over the group's `sum_indices`
(taken from the group's first monomial), and sum the groups. -/
def monomial_sum_to_expression (monomial_sum : List Monomial) : GExpr :=
  let groups := groupbyF (fun m => m.sum_indices.toFinset) monomial_sum
  make_sum (groups.map (fun g =>
    indexSumC
      (make_sum (g.2.map (fun m => make_product (m.atomics ++ [m.rest]))))
      (g.2.headI.sum_indices)))

/-- The cost of a candidate solution: `(len(solution), -extent)` where
`extent` sums the `index_extent` of the chosen atomics. -/
def cost (argument_indices : List Index) (solution : Finset GExpr) : Nat × Int :=
  (solution.card, -(solution.sum (fun a => (index_extent a argument_indices : Int))))

/-- Python's lexicographic `<` on the cost pairs. -/
def costLt (c1 c2 : Nat × Int) : Prop :=
  c1.1 < c2.1 ∨ (c1.1 = c2.1 ∧ c1.2 < c2.2)

instance (c1 c2 : Nat × Int) : Decidable (costLt c1 c2) := by
  unfold costLt; infer_instance

/-- Whether the working solution already hits a monomial
(`solution.intersection(monomial.atomics)` is non-empty). -/
def hitB (solution : Finset GExpr) (m : Monomial) : Bool :=
  m.atomics.any (fun a => a ∈ solution)

/-- The mutable state of the search: the best solution found so far and the
number of complete solutions examined so far. -/
structure SState where
  optimal : Finset GExpr
  count : Nat
deriving DecidableEq

/-- The enumeration budget `max_it = 1 << 12`. -/
def maxIt : Nat := 1 <<< 12

/-- The `for atomic in monomials[idx].atomics` loop of `solve`: try each
atomic of the current monomial in order, adding it to the working solution
and recursing (`go`); the interrupt (`StopIteration`) propagates. -/
def branchLoop (go : Finset GExpr → SState → Except SState SState)
    (solution : Finset GExpr) : List GExpr → SState → Except SState SState
  | [], st => .ok st
  | a :: as, st =>
    match go (insert a solution) st with
    | .error e => .error e
    | .ok st' => branchLoop go solution as st'

/-- The recursive search `solve(idx)` of `find_optimal_atomics`, processing
the remaining suffix of the monomial list.  Monomials already hit by the
working solution are skipped; at a complete solution the best-so-far is
updated when the new cost is strictly smaller and the budget counter is
advanced (`next(it)`), interrupting the search (`.error`, carrying the
current best) once `maxIt` complete solutions have been counted; otherwise
the search branches over the current monomial's atomics unless the working
solution is already as large as the best one (pruning).  `fuel` is a
recursion bound; each level consumes one monomial, so the wrapper's
`ms.length + 1` never runs out. -/
def solve (argument_indices : List Index) :
    Nat → Finset GExpr → List Monomial → SState → Except SState SState
  | 0, _, _, st => .ok st
  | _ + 1, solution, [], st =>
    let st1 := if costLt (cost argument_indices solution)
                  (cost argument_indices st.optimal)
               then ⟨solution, st.count⟩ else st
    if st1.count < maxIt then .ok ⟨st1.optimal, st1.count + 1⟩ else .error st1
  | fuel + 1, solution, m :: rest, st =>
    if hitB solution m then solve argument_indices fuel solution rest st
    else if solution.card < st.optimal.card then
      branchLoop (fun sol' st' => solve argument_indices fuel sol' rest st')
        solution m.atomics st
    else .ok st

/-- The de-duplicated union of all monomials' atomics, in first-seen order
(`OrderedDict.fromkeys(itertools.chain(*(m.atomics for m in monomials)))`). -/
def atomicsOf (monomials : List Monomial) : List GExpr :=
  dedupF (monomials.map (fun m => m.atomics)).flatten

/-- Running the search from the pessimal-but-feasible seed (all distinct
atomics) with an empty working solution. -/
def searchRun (monomials : List Monomial) (argument_indices : List Index) :
    Except SState SState :=
  solve argument_indices (monomials.length + 1) ∅ monomials
    ⟨(atomicsOf monomials).toFinset, 0⟩

/-- The search state `find_optimal_atomics` reads its answer from: the final
state on normal completion, and the state carried by the interrupt when the
budget was exhausted (`except StopIteration: logger.warning(...)`). -/
def finalState (monomials : List Monomial) (argument_indices : List Index) :
    SState :=
  match searchRun monomials argument_indices with
  | .ok st => st
  | .error st => st

/-- `find_optimal_atomics`: the members of the candidate atomics list that
made it into the optimal solution, in first-seen order. -/
def find_optimal_atomics (monomials : List Monomial)
    (argument_indices : List Index) : List GExpr :=
  (atomicsOf monomials).filter
    (fun a => a ∈ (finalState monomials argument_indices).optimal)

/-- Failure modes made explicit: a Python `assert` firing
(`AssertionError`), or running out of the recursion fuel of the shallow
embedding (never happens at the fuel chosen by the wrappers). -/
inductive OptErr where
  | assertFail : OptErr
  | fuelOut : OptErr
deriving DecidableEq, Repr

/-- The `group_key` closure of `factorise_atomics`: the first optimal atomic
contained in the monomial's atomics; `none` models the
`assert False, "Expect at least one optimal atomic per monomial."`. -/
def keyOf (optimal_atomics : List GExpr) (m : Monomial) : Option GExpr :=
  optimal_atomics.find? (fun oa => oa ∈ m.atomics)

/-- Evaluate a fallible function on every list element in order, failing as
soon as one evaluation fails (the effect of evaluating `group_key` on each
monomial while `groupby` builds its dictionary). -/
def mapOptM {α β : Type} (f : α → Option β) : List α → Option (List β)
  | [] => some []
  | x :: xs =>
    match f x with
    | none => none
    | some y =>
      match mapOptM f xs with
      | none => none
      | some ys => some (y :: ys)

/-- Run a fallible computation on every list element in order, propagating
the first failure (assertion errors propagate out of Python loops). -/
def mapExM {α β : Type} (f : α → Except OptErr β) :
    List α → Except OptErr (List β)
  | [] => .ok []
  | x :: xs =>
    match f x with
    | .error e => .error e
    | .ok y =>
      match mapExM f xs with
      | .error e => .error e
      | .ok ys => .ok (y :: ys)

/-- The residual sub-monomials of one factor group: the common atomic is
removed from each member's atomics (`atomics.remove(oa)`, first occurrence)
and the sub-level sum indices are empty. -/
def residuals (oa : GExpr) (gms : List Monomial) : List Monomial :=
  gms.map (fun m => Monomial.mk [] (m.atomics.erase oa) m.rest)

/-- Rebuilding one monomial from a factor group's common atomic and its
recursively optimised residual: merge the atomic straight back in when the
residual collapsed to one monomial; otherwise materialise the residual as a
node that stays an atomic when its free indices meet the argument indices
and becomes the `rest` otherwise. -/
def buildMonomial (sum_indices argument_indices : List Index) (oa : GExpr)
    (subs : List Monomial) : Monomial :=
  match subs with
  | [sub_monomial] =>
    Monomial.mk sum_indices (oa :: sub_monomial.atomics) sub_monomial.rest
  | _ =>
    let node := monomial_sum_to_expression subs
    if (argument_indices.toFinset ∩ (free_indices node).toFinset) ≠ ∅ then
      Monomial.mk sum_indices [oa, node] .one
    else
      Monomial.mk sum_indices [oa] node

/-- The `for oa, monomials in factor_group` loop of `factorise_atomics`,
parametrised by the recursive optimiser `opt` (`optimise_monomials`):
optimise each group's residual and rebuild one monomial per group. -/
def goGroups (opt : List Monomial → Except OptErr (List Monomial))
    (sum_indices : List Index) (argument_indices : List Index) :
    List (Option GExpr × List Monomial) → Except OptErr (List Monomial)
  | [] => .ok []
  | (none, _) :: _ => .error .assertFail
  | (some oa, gms) :: rest =>
    match opt (residuals oa gms) with
    | .error e => .error e
    | .ok subs =>
      match goGroups opt sum_indices argument_indices rest with
      | .error e => .error e
      | .ok out => .ok (buildMonomial sum_indices argument_indices oa subs :: out)

/-- `factorise_atomics`, parametrised by the recursive optimiser `opt`: a
no-op when there are no chosen atomics or at most one monomial; otherwise
group the monomials by `group_key` (asserting that every monomial contains
an optimal atomic and that no monomial is dropped) and rebuild one monomial
per group. -/
def factoriseWith (opt : List Monomial → Except OptErr (List Monomial))
    (monomials : List Monomial) (optimal_atomics : List GExpr)
    (argument_indices : List Index) : Except OptErr (List Monomial) :=
  if optimal_atomics = [] ∨ monomials.length ≤ 1 then .ok monomials
  else
    match mapOptM (fun m => keyOf optimal_atomics m) monomials with
    | none => .error .assertFail
    | some _ =>
      let factor_group := groupbyF (keyOf optimal_atomics) monomials
      if (factor_group.map (fun g => g.2.length)).sum = monomials.length then
        goGroups opt (monomials.headI).sum_indices argument_indices factor_group
      else .error .assertFail

/-- `optimise_monomials`, fuelled: assert that all monomials share the same
`sum_indices` (as sets), then factorise with the optimal atomics found by
the search.  One unit of fuel is spent per recursion level; the total
number of atomics strictly decreases per level, so the wrappers'
`totalAtoms + 1` never runs out. -/
def optimiseF (argument_indices : List Index) :
    Nat → List Monomial → Except OptErr (List Monomial)
  | 0, _ => .error .fuelOut
  | fuel + 1, monomials =>
    if (dedupF (monomials.map (fun m => m.sum_indices.toFinset))).length ≤ 1 then
      factoriseWith (optimiseF argument_indices fuel) monomials
        (find_optimal_atomics monomials argument_indices) argument_indices
    else .error .assertFail

/-- Total number of atomic occurrences, the fuel bound of the recursion. -/
def totalAtoms (monomials : List Monomial) : Nat :=
  (monomials.map (fun m => m.atomics.length)).sum

/-- `optimise_monomials` at sufficient fuel. -/
def optimise_monomials (monomials : List Monomial)
    (argument_indices : List Index) : Except OptErr (List Monomial) :=
  optimiseF argument_indices (totalAtoms monomials + 1) monomials

/-- `factorise_atomics` at sufficient fuel for its recursive
`optimise_monomials` calls. -/
def factorise_atomics (monomials : List Monomial)
    (optimal_atomics : List GExpr) (argument_indices : List Index) :
    Except OptErr (List Monomial) :=
  factoriseWith (optimiseF argument_indices (totalAtoms monomials + 1))
    monomials optimal_atomics argument_indices

/-- `optimise_monomial_sum`: partition by `sum_indices` as sets, optimise
each group, concatenate, reassemble into one expression. -/
def optimise_monomial_sum (monomial_sum : List Monomial)
    (argument_indices : List Index) : Except OptErr GExpr :=
  let groups := groupbyF (fun m => m.sum_indices.toFinset) monomial_sum
  match mapExM (fun g => optimise_monomials g.2 argument_indices) groups with
  | .error e => .error e
  | .ok newGroups => .ok (monomial_sum_to_expression newGroups.flatten)

/-- `optimise_expressions`, parametrised by the external decomposition
collaborator `collect` (`gem.refactorise.collect_monomials`; modelled from
the spec: it returns one monomial sum per input expression): skip
optimisation entirely — returning the input expressions unchanged — when a
`Failure` node is present anywhere, and otherwise optimise each collected
monomial sum. -/
def optimise_expressions (collect : List GExpr → List (List Monomial))
    (expressions : List GExpr) (argument_indices : List Index) :
    Except OptErr (List GExpr) :=
  if expressions.any hasFailure then .ok expressions
  else
    match mapExM (fun ms => optimise_monomial_sum ms argument_indices)
        (collect expressions) with
    | .error e => .error e
    | .ok out => .ok out

/-- View of `Except` as a sum, to decide equality of results. -/
def exceptToSum {α β : Type} : Except α β → α ⊕ β
  | .error a => .inl a
  | .ok b => .inr b

instance {α β : Type} [DecidableEq α] [DecidableEq β] :
    DecidableEq (Except α β) := fun x y =>
  decidable_of_iff (exceptToSum x = exceptToSum y)
    (by cases x <;> cases y <;> simp [exceptToSum])

/-- A list of atomics hits every monomial of the group: the hitting-set
requirement on the result of the search. -/
def isHitting (monomials : List Monomial) (sel : List GExpr) : Prop :=
  ∀ m ∈ monomials, ∃ a, a ∈ m.atomics ∧ a ∈ sel

instance (monomials : List Monomial) (sel : List GExpr) :
    Decidable (isHitting monomials sel) := by
  unfold isHitting; infer_instance

/-- The state carried by a search result, whether the search completed or
was interrupted by the budget. -/
def resState : Except SState SState → SState
  | .ok st => st
  | .error st => st

/-- Whether the search was interrupted by the enumeration budget (the
`StopIteration` branch, in which the warning is logged). -/
def isErrE : Except SState SState → Bool
  | .ok _ => false
  | .error _ => true

/-! ### Concrete scenario inputs -/

/-- A monomial group that exhausts the enumeration budget: the search tree
has `17 ^ 3 = 4913 > 4096` complete solutions and the size-based pruning
never cuts a branch before its first complete solution here. -/
def budgetExample : List Monomial :=
  [⟨[], (List.range 17).map (fun i => .atomE i []), .one⟩,
   ⟨[], (List.range 17).map (fun i => .atomE (100 + i) []), .one⟩,
   ⟨[], (List.range 17).map (fun i => .atomE (200 + i) []), .one⟩]

/-- The common-atomic scenario: argument indices of extents 5, 3, 2. -/
def idxA : Index := ⟨0, 5⟩

def idxB : Index := ⟨1, 3⟩

def idxC : Index := ⟨2, 2⟩

/-- Atomic `A` of the common-atomic scenario (index extent 5). -/
def atomA : GExpr := .atomE 0 [idxA]

/-- Atomic `B` of the common-atomic scenario (index extent 3). -/
def atomB : GExpr := .atomE 1 [idxB]

/-- Atomic `C` of the common-atomic scenario (index extent 2). -/
def atomC : GExpr := .atomE 2 [idxC]

/-- `m1 = (∅, [A, B], 1)`. -/
def scenM1 : Monomial := ⟨[], [atomA, atomB], .one⟩

/-- `m2 = (∅, [A, C], 1)`. -/
def scenM2 : Monomial := ⟨[], [atomA, atomC], .one⟩

/-- The argument indices of the common-atomic scenario. -/
def scenArgs : List Index := [idxA, idxB, idxC]

/-- Three monomials with pairwise disjoint atomics, the first having two
distinct atomics. -/
def disjM1 : Monomial := ⟨[], [.atomE 10 [], .atomE 11 []], .one⟩

def disjM2 : Monomial := ⟨[], [.atomE 12 []], .one⟩

def disjM3 : Monomial := ⟨[], [.atomE 13 []], .one⟩

/-! ### Basic lemmas about `dedupF` and `groupbyF` -/

theorem dedupF_go_mem {α : Type} [DecidableEq α] (l : List α) :
    ∀ acc a, a ∈ l.foldl (fun acc x => if x ∈ acc then acc else acc ++ [x]) acc
      ↔ a ∈ acc ∨ a ∈ l := by
  induction l with
  | nil => intro acc a; simp
  | cons x xs ih =>
    intro acc a
    by_cases hx : x ∈ acc
    · simp only [List.foldl_cons, if_pos hx, ih]
      constructor
      · rintro (h | h)
        · exact Or.inl h
        · exact Or.inr (List.mem_cons_of_mem _ h)
      · rintro (h | h)
        · exact Or.inl h
        · rcases List.mem_cons.mp h with rfl | h
          · exact Or.inl hx
          · exact Or.inr h
    · simp only [List.foldl_cons, if_neg hx, ih, List.mem_append,
        List.mem_singleton, List.mem_cons]
      tauto

theorem mem_dedupF {α : Type} [DecidableEq α] (l : List α) (a : α) :
    a ∈ dedupF l ↔ a ∈ l := by
  unfold dedupF
  rw [dedupF_go_mem]
  simp

theorem dedupF_go_length {α : Type} [DecidableEq α] (l : List α) :
    ∀ acc, (l.foldl (fun acc x => if x ∈ acc then acc else acc ++ [x]) acc).length
      ≤ acc.length + l.length := by
  induction l with
  | nil => intro acc; simp
  | cons x xs ih =>
    intro acc
    by_cases hx : x ∈ acc
    · simp only [List.foldl_cons, if_pos hx]
      calc _ ≤ acc.length + xs.length := ih acc
        _ ≤ acc.length + (x :: xs).length := by simp
    · simp only [List.foldl_cons, if_neg hx]
      calc _ ≤ (acc ++ [x]).length + xs.length := ih _
        _ ≤ acc.length + (x :: xs).length := by simp; omega

theorem length_dedupF_le {α : Type} [DecidableEq α] (l : List α) :
    (dedupF l).length ≤ l.length := by
  have := dedupF_go_length l []
  simpa [dedupF] using this

theorem groupbyF_length {α β : Type} [DecidableEq α] [DecidableEq β]
    (key : α → β) (l : List α) :
    (groupbyF key l).length ≤ l.length := by
  unfold groupbyF
  calc (List.map _ (dedupF (l.map key))).length
      = (dedupF (l.map key)).length := by rw [List.length_map]
    _ ≤ (l.map key).length := length_dedupF_le _
    _ = l.length := by rw [List.length_map]

theorem groupbyF_mem {α β : Type} [DecidableEq α] [DecidableEq β]
    (key : α → β) (l : List α) (k : β) (g : List α)
    (h : (k, g) ∈ groupbyF key l) :
    g = l.filter (fun x => key x = k) ∧ k ∈ l.map key := by
  unfold groupbyF at h
  rcases List.mem_map.mp h with ⟨k', hk', hEq⟩
  obtain ⟨rfl, rfl⟩ : k' = k ∧ (l.filter (fun x => key x = k')) = g := by
    constructor
    · exact (Prod.mk.injEq _ _ _ _ ▸ hEq).1
    · exact (Prod.mk.injEq _ _ _ _ ▸ hEq).2
  exact ⟨rfl, (mem_dedupF _ _).mp hk'⟩

/-! ### Search invariants -/

theorem finalState_eq (monomials : List Monomial) (argument_indices : List Index) :
    finalState monomials argument_indices
      = resState (searchRun monomials argument_indices) := by
  unfold finalState
  cases searchRun monomials argument_indices <;> rfl

theorem hitB_mono {sol sol' : Finset GExpr} {m : Monomial}
    (hsub : sol ⊆ sol') (h : hitB sol m = true) : hitB sol' m = true := by
  unfold hitB at h ⊢
  rcases List.any_eq_true.mp h with ⟨a, ha, hmem⟩
  exact List.any_eq_true.mpr ⟨a, ha, decide_eq_true (hsub (of_decide_eq_true hmem))⟩

theorem hitB_insert_of_mem {sol : Finset GExpr} {m : Monomial} {a : GExpr}
    (ha : a ∈ m.atomics) : hitB (insert a sol) m = true := by
  unfold hitB
  exact List.any_eq_true.mpr ⟨a, ha, decide_eq_true (Finset.mem_insert_self a sol)⟩

/-- Stepping `branchLoop` preserves any property of the threaded state that
each branch preserves, and any property of interrupt states that each
branch guarantees (the interrupt carries its state straight out). -/
theorem branchLoop_invariant (P : SState → Prop) (Q : SState → Prop)
    (go : Finset GExpr → SState → Except SState SState) (sol : Finset GExpr) :
    ∀ as st,
      (∀ a ∈ as, ∀ st', P st' →
        P (resState (go (insert a sol) st')) ∧
          (∀ e, go (insert a sol) st' = .error e → Q e)) →
      P st →
      P (resState (branchLoop go sol as st)) ∧
        (∀ e, branchLoop go sol as st = .error e → Q e) := by
  intro as
  induction as with
  | nil =>
    intro st _ hP
    exact ⟨hP, by intro e he; exact absurd he (by simp [branchLoop])⟩
  | cons a as ih =>
    intro st hgo hP
    have hstep := hgo a (List.mem_cons_self a as) st hP
    unfold branchLoop
    cases hcase : go (insert a sol) st with
    | error e =>
      rw [hcase] at hstep
      refine ⟨hstep.1, ?_⟩
      intro e' he'
      have : e' = e := by injection he' with h; exact h.symm
      exact this ▸ hstep.2 e rfl
    | ok st' =>
      have hP' : P st' := by rw [hcase] at hstep; exact hstep.1
      exact ih st' (fun a' ha' => hgo a' (List.mem_cons_of_mem a ha')) hP'

/-- Main invariant of the search: if the best-so-far solution hits every
monomial of the whole group, is drawn from the candidate pool `U`, and the
budget counter has not overrun, then the same holds of the state the search
ends in — normally or interrupted — and an interrupt happens exactly at the
budget. -/
theorem solve_invariant (A : List Index) (L : List Monomial) (U : Finset GExpr)
    (hU : ∀ m ∈ L, ∀ a ∈ m.atomics, a ∈ U) :
    ∀ fuel (sol : Finset GExpr) (ms : List Monomial) (st : SState),
      (∀ m ∈ L, hitB sol m = true ∨ m ∈ ms) →
      (∀ m ∈ ms, m ∈ L) →
      (∀ m ∈ L, hitB st.optimal m = true) →
      st.optimal ⊆ U → sol ⊆ U → st.count ≤ maxIt →
      ((∀ m ∈ L, hitB (resState (solve A fuel sol ms st)).optimal m = true) ∧
       (resState (solve A fuel sol ms st)).optimal ⊆ U ∧
       (resState (solve A fuel sol ms st)).count ≤ maxIt ∧
       (∀ e, solve A fuel sol ms st = .error e → e.count = maxIt)) := by
  intro fuel
  induction fuel with
  | zero =>
    intro sol ms st _ _ hopt hoptU _ hcnt
    exact ⟨hopt, hoptU, hcnt, by intro e he; exact absurd he (by simp [solve])⟩
  | succ fuel ih =>
    intro sol ms st hcover hmsL hopt hoptU hsolU hcnt
    cases ms with
    | nil =>
      have hsolhits : ∀ m ∈ L, hitB sol m = true := by
        intro m hm
        rcases hcover m hm with h | h
        · exact h
        · exact absurd h (List.not_mem_nil m)
      show _ ∧ _ ∧ _ ∧ _
      simp only [solve]
      set st1 := if costLt (cost A sol) (cost A st.optimal)
                 then SState.mk sol st.count else st with hst1
      have hst1opt : (∀ m ∈ L, hitB st1.optimal m = true) ∧ st1.optimal ⊆ U
          ∧ st1.count = st.count := by
        rw [hst1]
        by_cases hc : costLt (cost A sol) (cost A st.optimal)
        · rw [if_pos hc]; exact ⟨hsolhits, hsolU, rfl⟩
        · rw [if_neg hc]; exact ⟨hopt, hoptU, rfl⟩
      have hst1cnt : st1.count = st.count := hst1opt.2.2
      by_cases hlt : st1.count < maxIt
      · rw [if_pos hlt]
        refine ⟨hst1opt.1, hst1opt.2.1, by simp [resState]; omega, ?_⟩
        intro e he; exact absurd he (by simp)
      · rw [if_neg hlt]
        refine ⟨hst1opt.1, hst1opt.2.1, by simp [resState]; omega, ?_⟩
        intro e he
        have he' : e = st1 := by injection he with h; exact h.symm
        rw [he']
        omega
    | cons m rest =>
      show _ ∧ _ ∧ _ ∧ _
      simp only [solve]
      by_cases hhit : hitB sol m = true
      · rw [if_pos hhit]
        refine ih sol rest st ?_ ?_ hopt hoptU hsolU hcnt
        · intro m' hm'
          rcases hcover m' hm' with h | h
          · exact Or.inl h
          · rcases List.mem_cons.mp h with rfl | h
            · exact Or.inl hhit
            · exact Or.inr h
        · intro m' hm'; exact hmsL m' (List.mem_cons_of_mem m hm')
      · rw [if_neg hhit]
        by_cases hcard : sol.card < st.optimal.card
        · rw [if_pos hcard]
          have hm_in_L : m ∈ L := hmsL m (List.mem_cons_self m rest)
          have hmain := branchLoop_invariant
            (fun st' => (∀ m' ∈ L, hitB st'.optimal m' = true) ∧ st'.optimal ⊆ U
              ∧ st'.count ≤ maxIt)
            (fun e => e.count = maxIt)
            (fun sol' st' => solve A fuel sol' rest st') sol m.atomics st
            (by
              intro a ha st' hP
              have haU : a ∈ U := hU m hm_in_L a ha
              have := ih (insert a sol) rest st'
                (by
                  intro m' hm'
                  rcases hcover m' hm' with h | h
                  · exact Or.inl (hitB_mono (Finset.subset_insert a sol) h)
                  · rcases List.mem_cons.mp h with rfl | h
                    · exact Or.inl (hitB_insert_of_mem ha)
                    · exact Or.inr h)
                (fun m' hm' => hmsL m' (List.mem_cons_of_mem m hm'))
                hP.1 hP.2.1 (Finset.insert_subset haU hsolU) hP.2.2
              exact ⟨⟨this.1, this.2.1, this.2.2.1⟩, this.2.2.2⟩)
            ⟨hopt, hoptU, hcnt⟩
          exact ⟨hmain.1.1, hmain.1.2.1, hmain.1.2.2, hmain.2⟩
        · rw [if_neg hcard]
          refine ⟨hopt, hoptU, hcnt, ?_⟩
          intro e he; exact absurd he (by simp)

theorem mem_atomicsOf {ms : List Monomial} {a : GExpr} :
    a ∈ atomicsOf ms ↔ ∃ m ∈ ms, a ∈ m.atomics := by
  unfold atomicsOf
  rw [mem_dedupF, List.mem_flatten]
  constructor
  · rintro ⟨l, hl, hal⟩
    rcases List.mem_map.mp hl with ⟨m, hm, rfl⟩
    exact ⟨m, hm, hal⟩
  · rintro ⟨m, hm, ha⟩
    exact ⟨m.atomics, List.mem_map.mpr ⟨m, hm, rfl⟩, ha⟩

/-- What the search establishes about the state it ends in, starting from
the pessimal-but-feasible seed: a hitting set drawn from the candidate
pool, a budget counter within bounds, and — on interrupt — a counter at
exactly the budget. -/
theorem searchState_spec (ms : List Monomial) (A : List Index)
    (hat : ∀ m ∈ ms, m.atomics ≠ []) :
    (∀ m ∈ ms, hitB (finalState ms A).optimal m = true) ∧
    (finalState ms A).optimal ⊆ (atomicsOf ms).toFinset ∧
    (finalState ms A).count ≤ maxIt ∧
    (∀ e, searchRun ms A = .error e → e.count = maxIt) := by
  have h := solve_invariant A ms ((atomicsOf ms).toFinset)
    (fun m hm a ha => List.mem_toFinset.mpr (mem_atomicsOf.mpr ⟨m, hm, ha⟩))
    (ms.length + 1) ∅ ms ⟨(atomicsOf ms).toFinset, 0⟩
    (fun m hm => Or.inr hm)
    (fun _ hm => hm)
    (by
      intro m hm
      rcases List.exists_mem_of_ne_nil m.atomics (hat m hm) with ⟨a, ha⟩
      exact List.any_eq_true.mpr ⟨a, ha, decide_eq_true
        (List.mem_toFinset.mpr (mem_atomicsOf.mpr ⟨m, hm, ha⟩))⟩)
    (Finset.Subset.refl _)
    (Finset.empty_subset _)
    (Nat.zero_le _)
  rw [finalState_eq]
  exact h

/-- C1: for a non-empty group of monomials sharing the same sum indices,
each with at least one atomic, `find_optimal_atomics` returns a sublist of
the de-duplicated union of the monomials' atomics (so a subset, in
first-seen order) that hits every monomial — whether or not the
enumeration budget was exhausted. -/
theorem find_optimal_atomics_hitting_set (ms : List Monomial)
    (A : List Index) (s : List Index)
    (hne : ms ≠ []) (hsi : ∀ m ∈ ms, m.sum_indices = s)
    (hat : ∀ m ∈ ms, m.atomics ≠ []) :
    List.Sublist (find_optimal_atomics ms A) (atomicsOf ms) ∧
    isHitting ms (find_optimal_atomics ms A) := by
  have hspec := searchState_spec ms A hat
  refine ⟨List.filter_sublist _, ?_⟩
  intro m hm
  rcases List.any_eq_true.mp (hspec.1 m hm) with ⟨a, ha, hdec⟩
  refine ⟨a, ha, ?_⟩
  unfold find_optimal_atomics
  exact List.mem_filter.mpr
    ⟨mem_atomicsOf.mpr ⟨m, hm, ha⟩, hdec⟩

theorem find_optimal_atomics_hitting_set_witness :
    List.Sublist
      (find_optimal_atomics [⟨[], [.atomE 0 []], .one⟩] [])
      (atomicsOf [⟨[], [.atomE 0 []], .one⟩]) ∧
    isHitting [⟨[], [.atomE 0 []], .one⟩]
      (find_optimal_atomics [⟨[], [.atomE 0 []], .one⟩] []) :=
  find_optimal_atomics_hitting_set [⟨[], [.atomE 0 []], .one⟩] [] []
    (by decide) (by decide) (by decide)

/-- C6: the branch-and-bound search is capped at `maxIt = 4096 = 1 << 12`
complete solutions; when the budget interrupt fires before the space is
fully explored, `find_optimal_atomics` still returns (the best-so-far
solution carried by the interrupt, filtered out of the candidate list) and
the result is still a valid hitting set; exactly `maxIt` complete
solutions were counted at the interrupt (the logged warning's count). -/
theorem find_optimal_atomics_budget (ms : List Monomial) (A : List Index)
    (hex : isErrE (searchRun ms A) = true)
    (hat : ∀ m ∈ ms, m.atomics ≠ []) :
    maxIt = 4096 ∧
    (finalState ms A).count = maxIt ∧
    find_optimal_atomics ms A
      = (atomicsOf ms).filter (fun a => a ∈ (finalState ms A).optimal) ∧
    isHitting ms (find_optimal_atomics ms A) := by
  have hspec := searchState_spec ms A hat
  refine ⟨by decide, ?_, rfl, ?_⟩
  · cases hrun : searchRun ms A with
    | ok st => rw [hrun] at hex; exact absurd hex (by simp [isErrE])
    | error e =>
      rw [finalState_eq, hrun]
      exact hspec.2.2.2 e hrun
  · intro m hm
    rcases List.any_eq_true.mp (hspec.1 m hm) with ⟨a, ha, hdec⟩
    refine ⟨a, ha, ?_⟩
    unfold find_optimal_atomics
    exact List.mem_filter.mpr ⟨mem_atomicsOf.mpr ⟨m, hm, ha⟩, hdec⟩

/-! ### Minimality of the search result -/

theorem costLt_irrefl (c : Nat × Int) : ¬ costLt c c := by
  unfold costLt; omega

theorem costLt_asymm {a b : Nat × Int} (h : costLt a b) : ¬ costLt b a := by
  unfold costLt at h ⊢; omega

theorem not_costLt_trans {a b c : Nat × Int}
    (h1 : ¬ costLt a b) (h2 : ¬ costLt b c) : ¬ costLt a c := by
  unfold costLt at h1 h2 ⊢; omega

theorem hitB_eq_true_iff {S : Finset GExpr} {m : Monomial} :
    hitB S m = true ↔ ∃ a ∈ m.atomics, a ∈ S := by
  unfold hitB
  rw [List.any_eq_true]
  constructor
  · rintro ⟨a, ha, hd⟩; exact ⟨a, ha, of_decide_eq_true hd⟩
  · rintro ⟨a, ha, hd⟩; exact ⟨a, ha, decide_eq_true hd⟩

/-- A solution can only get (weakly) cheaper by shrinking to a subset:
the cost pair of a superset never lexicographically beats the subset's. -/
theorem cost_subset_not_lt {A : List Index} {sol S : Finset GExpr}
    (hsub : sol ⊆ S) : ¬ costLt (cost A S) (cost A sol) := by
  rcases lt_or_eq_of_le (Finset.card_le_card hsub) with hlt | heq
  · unfold costLt cost; simp only; omega
  · have : sol = S := Finset.eq_of_subset_of_card_le hsub (le_of_eq heq.symm)
    rw [this]
    exact costLt_irrefl _

/-- Minimality through the branching loop: if every branch, run on any
state, never worsens the best-so-far and bounds every hitting superset of
its extended working solution, then the loop never worsens the best-so-far
and bounds every hitting superset of the working solution that contains one
of the branched atomics. -/
theorem branchLoop_minimal (A : List Index)
    (HitsL : Finset GExpr → Prop)
    (go : Finset GExpr → SState → Except SState SState) (sol : Finset GExpr) :
    ∀ as st stF,
      (∀ a ∈ as, ∀ st0 st1, go (insert a sol) st0 = .ok st1 →
        (¬ costLt (cost A st0.optimal) (cost A st1.optimal)) ∧
        (∀ S : Finset GExpr, insert a sol ⊆ S → HitsL S →
          ¬ costLt (cost A S) (cost A st1.optimal))) →
      branchLoop go sol as st = .ok stF →
      (¬ costLt (cost A st.optimal) (cost A stF.optimal)) ∧
      (∀ S : Finset GExpr, sol ⊆ S → HitsL S → (∃ a ∈ as, a ∈ S) →
        ¬ costLt (cost A S) (cost A stF.optimal)) := by
  intro as
  induction as with
  | nil =>
    intro st stF _ hok
    have : st = stF := by
      unfold branchLoop at hok; injection hok
    subst this
    refine ⟨costLt_irrefl _, ?_⟩
    rintro S _ _ ⟨a, ha, _⟩
    exact absurd ha (List.not_mem_nil a)
  | cons a as ih =>
    intro st stF hgo hok
    unfold branchLoop at hok
    cases hcase : go (insert a sol) st with
    | error e => rw [hcase] at hok; exact absurd hok (by simp)
    | ok st1 =>
      rw [hcase] at hok
      have hhead := hgo a (List.mem_cons_self a as) st st1 hcase
      have htail := ih st1 stF (fun a' ha' => hgo a' (List.mem_cons_of_mem a ha')) hok
      refine ⟨not_costLt_trans hhead.1 htail.1, ?_⟩
      rintro S hsolS hhits ⟨a', ha', ha'S⟩
      rcases List.mem_cons.mp ha' with rfl | ha'
      · exact not_costLt_trans
          (hhead.2 S (Finset.insert_subset ha'S hsolS) hhits) htail.1
      · exact htail.2 S hsolS hhits ⟨a', ha', ha'S⟩

/-- Minimality of the search when it completes without interruption: the
final best solution is no worse than the initial one, and no hitting
superset of the working solution beats it. -/
theorem solve_minimal (A : List Index) (L : List Monomial) :
    ∀ fuel (sol : Finset GExpr) (ms : List Monomial) (st st' : SState),
      ms.length < fuel →
      (∀ m ∈ L, hitB sol m = true ∨ m ∈ ms) →
      (∀ m ∈ ms, m ∈ L) →
      solve A fuel sol ms st = .ok st' →
      (¬ costLt (cost A st.optimal) (cost A st'.optimal)) ∧
      (∀ S : Finset GExpr, sol ⊆ S → (∀ m ∈ L, hitB S m = true) →
        ¬ costLt (cost A S) (cost A st'.optimal)) := by
  intro fuel
  induction fuel with
  | zero =>
    intro sol ms st st' hfuel
    exact absurd hfuel (by omega)
  | succ fuel ih =>
    intro sol ms st st' hfuel hcover hmsL hok
    cases ms with
    | nil =>
      simp only [solve] at hok
      set st1 := if costLt (cost A sol) (cost A st.optimal)
                 then SState.mk sol st.count else st with hst1
      have hsol_le_st1 : (¬ costLt (cost A st.optimal) (cost A st1.optimal)) ∧
          (¬ costLt (cost A sol) (cost A st1.optimal)) := by
        rw [hst1]
        by_cases hc : costLt (cost A sol) (cost A st.optimal)
        · rw [if_pos hc]; exact ⟨costLt_asymm hc, costLt_irrefl _⟩
        · rw [if_neg hc]; exact ⟨costLt_irrefl _, hc⟩
      by_cases hlt : st1.count < maxIt
      · rw [if_pos hlt] at hok
        have hopt : st'.optimal = st1.optimal := by
          injection hok with h; rw [← h]
        refine ⟨by rw [hopt]; exact hsol_le_st1.1, ?_⟩
        intro S hsolS _
        rw [hopt]
        exact not_costLt_trans (cost_subset_not_lt hsolS) hsol_le_st1.2
      · rw [if_neg hlt] at hok
        exact absurd hok (by simp)
    | cons m rest =>
      simp only [solve] at hok
      by_cases hhit : hitB sol m = true
      · rw [if_pos hhit] at hok
        refine ih sol rest st st' (by simpa using Nat.lt_of_succ_lt_succ hfuel)
          ?_ (fun m' hm' => hmsL m' (List.mem_cons_of_mem m hm')) hok
        intro m' hm'
        rcases hcover m' hm' with h | h
        · exact Or.inl h
        · rcases List.mem_cons.mp h with rfl | h
          · exact Or.inl hhit
          · exact Or.inr h
      · rw [if_neg hhit] at hok
        by_cases hcard : sol.card < st.optimal.card
        · rw [if_pos hcard] at hok
          have hbl := branchLoop_minimal A (fun S => ∀ m' ∈ L, hitB S m' = true)
            (fun sol' st0 => solve A fuel sol' rest st0) sol m.atomics st st'
            (by
              intro a ha st0 st1 hgo
              exact ih (insert a sol) rest st0 st1
                (by simpa using Nat.lt_of_succ_lt_succ hfuel)
                (by
                  intro m' hm'
                  rcases hcover m' hm' with h | h
                  · exact Or.inl (hitB_mono (Finset.subset_insert a sol) h)
                  · rcases List.mem_cons.mp h with rfl | h
                    · exact Or.inl (hitB_insert_of_mem ha)
                    · exact Or.inr h)
                (fun m' hm' => hmsL m' (List.mem_cons_of_mem m hm'))
                hgo)
            hok
          refine ⟨hbl.1, ?_⟩
          intro S hsolS hhits
          have hm_in_L : m ∈ L := hmsL m (List.mem_cons_self m rest)
          rcases hitB_eq_true_iff.mp (hhits m hm_in_L) with ⟨a, ha, haS⟩
          exact hbl.2 S hsolS hhits ⟨a, ha, haS⟩
        · rw [if_neg hcard] at hok
          have hst : st = st' := by injection hok
          subst hst
          refine ⟨costLt_irrefl _, ?_⟩
          intro S hsolS hhits
          have hm_in_L : m ∈ L := hmsL m (List.mem_cons_self m rest)
          rcases hitB_eq_true_iff.mp (hhits m hm_in_L) with ⟨a, ha, haS⟩
          have hanotsol : a ∉ sol := by
            intro hasol
            exact hhit (hitB_eq_true_iff.mpr ⟨a, ha, hasol⟩)
          have hcardS : sol.card + 1 ≤ S.card := by
            have h1 : insert a sol ⊆ S := Finset.insert_subset haS hsolS
            have h2 := Finset.card_le_card h1
            rwa [Finset.card_insert_of_not_mem hanotsol] at h2
          unfold costLt cost
          simp only
          omega

/-- C2: when the enumeration budget is not exhausted, the returned tuple is
a hitting set whose `(count, -extent-sum)` cost pair is lexicographically
minimal among all hitting sets: no set of expressions hitting every
monomial's atomics has a strictly smaller cost pair.  (In particular the
size-based pruning discards no equal-count solution of larger extent sum.) -/
theorem find_optimal_atomics_minimal (ms : List Monomial) (A : List Index)
    (s : List Index)
    (hsi : ∀ m ∈ ms, m.sum_indices = s)
    (hat : ∀ m ∈ ms, m.atomics ≠ [])
    (hok : isErrE (searchRun ms A) = false) :
    isHitting ms (find_optimal_atomics ms A) ∧
    (∀ S : Finset GExpr, (∀ m ∈ ms, ∃ a ∈ m.atomics, a ∈ S) →
      ¬ costLt (cost A S) (cost A (find_optimal_atomics ms A).toFinset)) := by
  have hspec := searchState_spec ms A hat
  have hfin : (find_optimal_atomics ms A).toFinset
      = (finalState ms A).optimal := by
    apply Finset.Subset.antisymm
    · intro a ha
      have := List.mem_filter.mp (List.mem_toFinset.mp ha)
      exact of_decide_eq_true this.2
    · intro a ha
      have haU : a ∈ (atomicsOf ms).toFinset := hspec.2.1 ha
      exact List.mem_toFinset.mpr
        (List.mem_filter.mpr ⟨List.mem_toFinset.mp haU, decide_eq_true ha⟩)
  refine ⟨?_, ?_⟩
  · intro m hm
    rcases List.any_eq_true.mp (hspec.1 m hm) with ⟨a, ha, hdec⟩
    exact ⟨a, ha, List.mem_filter.mpr ⟨mem_atomicsOf.mpr ⟨m, hm, ha⟩, hdec⟩⟩
  · intro S hS
    rw [hfin]
    cases hrun : searchRun ms A with
    | error e => rw [hrun] at hok; exact absurd hok (by simp [isErrE])
    | ok st' =>
      have hmin := (solve_minimal A ms (ms.length + 1) ∅ ms
        ⟨(atomicsOf ms).toFinset, 0⟩ st' (by omega)
        (fun m hm => Or.inr hm) (fun _ hm => hm) hrun).2 S
        (Finset.empty_subset S)
        (fun m hm => hitB_eq_true_iff.mpr (hS m hm))
      rw [finalState_eq, hrun]
      exact hmin

theorem find_optimal_atomics_minimal_witness :
    isHitting [⟨[], [.atomE 0 []], .one⟩]
      (find_optimal_atomics [⟨[], [.atomE 0 []], .one⟩] []) ∧
    (∀ S : Finset GExpr,
      (∀ m ∈ [Monomial.mk [] [.atomE 0 []] .one], ∃ a ∈ m.atomics, a ∈ S) →
      ¬ costLt (cost [] S)
        (cost [] (find_optimal_atomics [⟨[], [.atomE 0 []], .one⟩] []).toFinset)) :=
  find_optimal_atomics_minimal [⟨[], [.atomE 0 []], .one⟩] [] []
    (by decide) (by decide) (by decide)

/-! ### The factorisation rewriter -/

/-- C7: with no chosen atomics, or at most one input monomial, the
factorisation rewriter returns its input unchanged. -/
theorem factorise_atomics_noop (monomials : List Monomial)
    (optimal_atomics : List GExpr) (argument_indices : List Index)
    (h : optimal_atomics = [] ∨ monomials.length ≤ 1) :
    factorise_atomics monomials optimal_atomics argument_indices
      = .ok monomials := by
  unfold factorise_atomics factoriseWith
  rw [if_pos h]

theorem factorise_atomics_noop_witness :
    factorise_atomics [⟨[], [.atomE 0 []], .one⟩] [] [] = .ok [⟨[], [.atomE 0 []], .one⟩] ∧
    factorise_atomics [⟨[], [.atomE 0 []], .one⟩] [.atomE 0 []] []
      = .ok [⟨[], [.atomE 0 []], .one⟩] :=
  ⟨factorise_atomics_noop [⟨[], [.atomE 0 []], .one⟩] [] [] (by decide),
   factorise_atomics_noop [⟨[], [.atomE 0 []], .one⟩] [.atomE 0 []] [] (by decide)⟩

theorem buildMonomial_sum_indices (si A : List Index) (oa : GExpr)
    (subs : List Monomial) : (buildMonomial si A oa subs).sum_indices = si := by
  unfold buildMonomial
  match subs with
  | [] => simp only; split <;> rfl
  | [sub] => rfl
  | s1 :: s2 :: t => simp only; split <;> rfl

/-- What the group loop guarantees about a successful run: one output
monomial per group — carrying the caller-supplied sum indices — built from
the group's key and its optimised residual. -/
theorem goGroups_spec (opt : List Monomial → Except OptErr (List Monomial))
    (si A : List Index) :
    ∀ (groups : List (Option GExpr × List Monomial)) (out : List Monomial),
      goGroups opt si A groups = .ok out →
      List.Forall₂ (fun (g : Option GExpr × List Monomial) (newm : Monomial) =>
        ∀ oa gms, g = (some oa, gms) →
          ∃ subs, opt (residuals oa gms) = .ok subs ∧
            newm = buildMonomial si A oa subs) groups out := by
  intro groups
  induction groups with
  | nil =>
    intro out hok
    have hout : out = [] := by
      have := hok.symm
      simp only [goGroups] at this
      injection this
    subst hout
    exact List.Forall₂.nil
  | cons g rest ih =>
    intro out hok
    obtain ⟨k, gms⟩ := g
    cases k with
    | none => exact absurd hok (by simp [goGroups])
    | some oa =>
      simp only [goGroups] at hok
      cases hsub : opt (residuals oa gms) with
      | error e => rw [hsub] at hok; exact absurd hok (by simp)
      | ok subs =>
        rw [hsub] at hok
        cases hrec : goGroups opt si A rest with
        | error e => rw [hrec] at hok; exact absurd hok (by simp)
        | ok out' =>
          rw [hrec] at hok
          have hout : out = buildMonomial si A oa subs :: out' := by
            injection hok with h; exact h.symm
          subst hout
          refine List.Forall₂.cons ?_ (ih out' hrec)
          intro oa' gms' heq
          obtain ⟨h1, h2⟩ : some oa = some oa' ∧ gms = gms' := by
            refine ⟨?_, ?_⟩
            · exact (Prod.mk.injEq _ _ _ _ ▸ heq).1
            · exact (Prod.mk.injEq _ _ _ _ ▸ heq).2
          obtain rfl : oa = oa' := by injection h1
          subst h2
          exact ⟨subs, hsub, rfl⟩

/-- Unfolding a successful non-trivial `factorise_atomics` run down to its
group loop. -/
theorem factorise_atomics_ok_elim (monomials : List Monomial)
    (optimal_atomics : List GExpr) (argument_indices : List Index)
    (out : List Monomial)
    (hne : ¬ (optimal_atomics = [] ∨ monomials.length ≤ 1))
    (hok : factorise_atomics monomials optimal_atomics argument_indices
      = .ok out) :
    goGroups (optimiseF argument_indices (totalAtoms monomials + 1))
      (monomials.headI).sum_indices argument_indices
      (groupbyF (keyOf optimal_atomics) monomials) = .ok out := by
  unfold factorise_atomics factoriseWith at hok
  rw [if_neg hne] at hok
  cases hkeys : mapOptM (fun m => keyOf optimal_atomics m) monomials with
  | none => rw [hkeys] at hok; exact absurd hok (by simp)
  | some ks =>
    rw [hkeys] at hok
    by_cases hcnt : ((groupbyF (keyOf optimal_atomics) monomials).map
        (fun g => g.2.length)).sum = monomials.length
    · rw [if_pos hcnt] at hok; exact hok
    · rw [if_neg hcnt] at hok; exact absurd hok (by simp)

/-- C3: on a successful non-trivial run, each factor group keyed by atomic
`a` yields exactly one output monomial: `(sum_indices, (a,) + residual
atomics, residual rest)` when the recursively optimised residual is a
single monomial; otherwise the residual is materialised into one node, and
the output is `(sum_indices, (a, node), 1)` when the node's free indices
meet the argument indices and `(sum_indices, (a,), node)` when they do
not. -/
theorem factorise_atomics_reconstruction (monomials : List Monomial)
    (optimal_atomics : List GExpr) (argument_indices : List Index)
    (out : List Monomial)
    (hne : optimal_atomics ≠ []) (hlen : 1 < monomials.length)
    (hok : factorise_atomics monomials optimal_atomics argument_indices
      = .ok out) :
    List.Forall₂ (fun (g : Option GExpr × List Monomial) (newm : Monomial) =>
      ∀ oa gms, g = (some oa, gms) →
        ∃ subs,
          optimiseF argument_indices (totalAtoms monomials + 1)
            (residuals oa gms) = .ok subs ∧
          ((∃ sub, subs = [sub] ∧
              newm = Monomial.mk (monomials.headI).sum_indices
                (oa :: sub.atomics) sub.rest) ∨
           (subs.length ≠ 1 ∧
            ((argument_indices.toFinset
                ∩ (free_indices (monomial_sum_to_expression subs)).toFinset ≠ ∅ ∧
              newm = Monomial.mk (monomials.headI).sum_indices
                [oa, monomial_sum_to_expression subs] .one) ∨
             (argument_indices.toFinset
                ∩ (free_indices (monomial_sum_to_expression subs)).toFinset = ∅ ∧
              newm = Monomial.mk (monomials.headI).sum_indices
                [oa] (monomial_sum_to_expression subs))))))
      (groupbyF (keyOf optimal_atomics) monomials) out := by
  have hgo := factorise_atomics_ok_elim monomials optimal_atomics
    argument_indices out (by push_neg; exact ⟨hne, by omega⟩) hok
  have hmain := goGroups_spec _ _ _ _ _ hgo
  refine List.Forall₂.imp ?_ hmain
  intro g newm hprop oa gms heq
  rcases hprop oa gms heq with ⟨subs, hsubs, rfl⟩
  refine ⟨subs, hsubs, ?_⟩
  match subs with
  | [sub] => exact Or.inl ⟨sub, rfl, rfl⟩
  | [] =>
    refine Or.inr ⟨by simp, ?_⟩
    by_cases hfi : argument_indices.toFinset
        ∩ (free_indices (monomial_sum_to_expression [])).toFinset ≠ ∅
    · exact Or.inl ⟨hfi, by unfold buildMonomial; simp only; rw [if_pos hfi]⟩
    · push_neg at hfi
      exact Or.inr ⟨hfi, by
        unfold buildMonomial; simp only
        rw [if_neg (by push_neg; exact hfi)]⟩
  | s1 :: s2 :: t =>
    refine Or.inr ⟨by simp, ?_⟩
    by_cases hfi : argument_indices.toFinset
        ∩ (free_indices (monomial_sum_to_expression (s1 :: s2 :: t))).toFinset ≠ ∅
    · exact Or.inl ⟨hfi, by unfold buildMonomial; simp only; rw [if_pos hfi]⟩
    · push_neg at hfi
      exact Or.inr ⟨hfi, by
        unfold buildMonomial; simp only
        rw [if_neg (by push_neg; exact hfi)]⟩

/-- C10: on a successful run over monomials sharing sum indices `s`, every
output monomial carries exactly `s`, and the output has no more monomials
than the input. -/
theorem factorise_atomics_shape (monomials : List Monomial)
    (optimal_atomics : List GExpr) (argument_indices : List Index)
    (s : List Index) (out : List Monomial)
    (hsi : ∀ m ∈ monomials, m.sum_indices = s)
    (hok : factorise_atomics monomials optimal_atomics argument_indices
      = .ok out) :
    (∀ m ∈ out, m.sum_indices = s) ∧ out.length ≤ monomials.length := by
  by_cases h : optimal_atomics = [] ∨ monomials.length ≤ 1
  · have hnoop : factorise_atomics monomials optimal_atomics argument_indices
        = .ok monomials := by
      unfold factorise_atomics factoriseWith
      rw [if_pos h]
    rw [hnoop] at hok
    have : monomials = out := by injection hok
    subst this
    exact ⟨hsi, le_refl _⟩
  · have hgo := factorise_atomics_ok_elim monomials optimal_atomics
      argument_indices out h hok
    have hmain := goGroups_spec _ _ _ _ _ hgo
    have hlen : out.length = (groupbyF (keyOf optimal_atomics) monomials).length :=
      (List.Forall₂.length_eq hmain).symm
    have hhead : (monomials.headI).sum_indices = s := by
      cases monomials with
      | nil => push_neg at h; simp at h
      | cons m rest => exact hsi m (List.mem_cons_self m rest)
    refine ⟨?_, by rw [hlen]; exact groupbyF_length _ _⟩
    intro m hm
    rcases List.mem_iff_get.mp hm with ⟨i, rfl⟩
    have hi : (i : Nat) < (groupbyF (keyOf optimal_atomics) monomials).length := by
      have := i.isLt; omega
    have hrel := List.forall₂_iff_get.mp hmain
    have hprop := hrel.2 i hi i.isLt
    set g := (groupbyF (keyOf optimal_atomics) monomials).get ⟨i, by omega⟩ with hg
    obtain ⟨k, gms⟩ := g
    cases k with
    | none =>
      exfalso
      have hmem : ((none : Option GExpr), gms)
          ∈ groupbyF (keyOf optimal_atomics) monomials := by
        rw [hg]; exact List.get_mem _ _ _
      -- a `none` group key would have made the run fail; derive the
      -- contradiction from the keys validation instead
      have hgo' := hgo
      rcases List.mem_iff_get.mp hmem with ⟨j, hj⟩
      have : False := by
        clear hmain hrel hprop
        -- walk goGroups to the `none` entry: it returns an error there
        have herr : ∀ (groups : List (Option GExpr × List Monomial)) out,
            (none, gms) ∈ groups →
            goGroups (optimiseF argument_indices (totalAtoms monomials + 1))
              (monomials.headI).sum_indices argument_indices groups ≠ .ok out := by
          intro groups
          induction groups with
          | nil => intro out hmem'; exact absurd hmem' (List.not_mem_nil _)
          | cons g' rest' ih' =>
            intro out' hmem' hok'
            rcases List.mem_cons.mp hmem' with rfl | hmem''
            · simp [goGroups] at hok'
            · obtain ⟨k', gms'⟩ := g'
              cases k' with
              | none => simp [goGroups] at hok'
              | some oa' =>
                simp only [goGroups] at hok'
                cases hsub' : optimiseF argument_indices (totalAtoms monomials + 1)
                    (residuals oa' gms') with
                | error e => rw [hsub'] at hok'; simp at hok'
                | ok subs' =>
                  rw [hsub'] at hok'
                  cases hrec' : goGroups (optimiseF argument_indices
                      (totalAtoms monomials + 1))
                      (monomials.headI).sum_indices argument_indices rest' with
                  | error e => rw [hrec'] at hok'; simp at hok'
                  | ok o' => exact ih' o' hmem'' hrec'
        exact herr _ out hmem hgo'
      exact this
    | some oa =>
      rcases hprop oa gms rfl with ⟨subs, _, hbuild⟩
      rw [hbuild, buildMonomial_sum_indices, hhead]

theorem factorise_atomics_shape_witness :
    (∀ m ∈ [Monomial.mk [] [atomA, .sumE atomB atomC] .one],
      m.sum_indices = ([] : List Index)) ∧
    [Monomial.mk [] [atomA, .sumE atomB atomC] .one].length
      ≤ [scenM1, scenM2].length :=
  factorise_atomics_shape [scenM1, scenM2] [atomA] scenArgs []
    [⟨[], [atomA, .sumE atomB atomC], .one⟩] (by decide) (by decide)

theorem factorise_atomics_reconstruction_witness :
    List.Forall₂ (fun (g : Option GExpr × List Monomial) (newm : Monomial) =>
      ∀ oa gms, g = (some oa, gms) →
        ∃ subs,
          optimiseF scenArgs (totalAtoms [scenM1, scenM2] + 1)
            (residuals oa gms) = .ok subs ∧
          ((∃ sub, subs = [sub] ∧
              newm = Monomial.mk ([scenM1, scenM2].headI).sum_indices
                (oa :: sub.atomics) sub.rest) ∨
           (subs.length ≠ 1 ∧
            ((scenArgs.toFinset
                ∩ (free_indices (monomial_sum_to_expression subs)).toFinset ≠ ∅ ∧
              newm = Monomial.mk ([scenM1, scenM2].headI).sum_indices
                [oa, monomial_sum_to_expression subs] .one) ∨
             (scenArgs.toFinset
                ∩ (free_indices (monomial_sum_to_expression subs)).toFinset = ∅ ∧
              newm = Monomial.mk ([scenM1, scenM2].headI).sum_indices
                [oa] (monomial_sum_to_expression subs))))))
      (groupbyF (keyOf [atomA]) [scenM1, scenM2])
      [⟨[], [atomA, .sumE atomB atomC], .one⟩] :=
  factorise_atomics_reconstruction [scenM1, scenM2] [atomA] scenArgs
    [⟨[], [atomA, .sumE atomB atomC], .one⟩]
    (by decide) (by decide) (by decide)

/-! ### The common-atomic scenario -/

/-- C4, counterexample: on `m1 = (∅, [A, B], 1)`, `m2 = (∅, [A, C], 1)` with
argument-index extents `A = 5`, `B = 3`, `C = 2`, the optimal atomics are
exactly `(A,)`, but the factorisation does *not* yield `(∅, [A], B + C)` —
the residual sum node `B + C` has free argument indices and is therefore
kept as an additional atomic, not as the `rest`. -/
theorem scenario_common_atomic_counterexample :
    find_optimal_atomics [scenM1, scenM2] scenArgs = [atomA] ∧
    factorise_atomics [scenM1, scenM2] [atomA] scenArgs
      ≠ .ok [⟨[], [atomA], .sumE atomB atomC⟩] := by decide

/-- C4, amended: the factorisation yields exactly one monomial
`(∅, [A, B + C], 1)` — the residual `B + C` joins the atomics and the rest
is the multiplicative identity — and the monomial still reassembles to the
expression `A * (B + C)`. -/
theorem scenario_common_atomic_amended :
    find_optimal_atomics [scenM1, scenM2] scenArgs = [atomA] ∧
    factorise_atomics [scenM1, scenM2] [atomA] scenArgs
      = .ok [⟨[], [atomA, .sumE atomB atomC], .one⟩] ∧
    monomial_sum_to_expression [⟨[], [atomA, .sumE atomB atomC], .one⟩]
      = .productE atomA (.sumE atomB atomC) := by decide

/-! ### Fail-fast on unsupported graphs -/

/-- C5: if any input expression contains the `Failure` marker anywhere in
its DAG, `optimise_expressions` returns the input list itself, unchanged,
whatever the decomposition collaborator would have produced. -/
theorem optimise_expressions_failure_skip
    (collect : List GExpr → List (List Monomial))
    (expressions : List GExpr) (argument_indices : List Index)
    (h : ∃ e ∈ expressions, hasFailure e = true) :
    optimise_expressions collect expressions argument_indices
      = .ok expressions := by
  unfold optimise_expressions
  rw [if_pos (List.any_eq_true.mpr h)]

theorem optimise_expressions_failure_skip_witness :
    optimise_expressions (fun _ => []) [.sumE .one .failureE] []
      = .ok [.sumE .one .failureE] :=
  optimise_expressions_failure_skip (fun _ => []) [.sumE .one .failureE] []
    ⟨.sumE .one .failureE, by decide, by decide⟩

/-! ### Monomials without atomics -/

/-- C9, counterexample: on a group containing a monomial with no atomics,
`find_optimal_atomics` does *not* fail — it returns (a tuple that cannot
hit the atomic-less monomial) without any error. -/
theorem no_atomics_counterexample :
    find_optimal_atomics [⟨[], [], .one⟩, ⟨[], [.atomE 0 []], .one⟩] []
      = [.atomE 0 []] ∧
    ¬ isHitting [⟨[], [], .one⟩, ⟨[], [.atomE 0 []], .one⟩]
      (find_optimal_atomics [⟨[], [], .one⟩, ⟨[], [.atomE 0 []], .one⟩] []) := by
  decide

/-- C9, amended: the fatal assertion on atomic-less monomials fires not in
the search but in the grouping step of `factorise_atomics` (`group_key`'s
`assert False`), as soon as there is more than one monomial and a non-empty
optimal-atomics tuple. -/
theorem factorise_atomics_no_atomics_assert (monomials : List Monomial)
    (optimal_atomics : List GExpr) (argument_indices : List Index)
    (hex : ∃ m ∈ monomials, m.atomics = [])
    (hne : optimal_atomics ≠ []) (hlen : 1 < monomials.length) :
    factorise_atomics monomials optimal_atomics argument_indices
      = .error .assertFail := by
  unfold factorise_atomics factoriseWith
  rw [if_neg (by push_neg; exact ⟨hne, by omega⟩)]
  rcases hex with ⟨m, hm, hat⟩
  have hnone : mapOptM (fun m => keyOf optimal_atomics m) monomials = none := by
    clear hlen
    induction monomials with
    | nil => exact absurd hm (List.not_mem_nil m)
    | cons x xs ih =>
      rcases List.mem_cons.mp hm with heq | hm'
      · have hkey : keyOf optimal_atomics x = none := by
          unfold keyOf
          rw [← heq, hat]
          rw [List.find?_eq_none]
          intro a _
          simp
        simp only [mapOptM, hkey]
      · unfold mapOptM
        cases hk : keyOf optimal_atomics x with
        | none => rfl
        | some y => rw [ih hm']
  rw [hnone]

theorem factorise_atomics_no_atomics_assert_witness :
    factorise_atomics [⟨[], [], .one⟩, ⟨[], [.atomE 0 []], .one⟩]
      [.atomE 0 []] [] = .error .assertFail :=
  factorise_atomics_no_atomics_assert
    [⟨[], [], .one⟩, ⟨[], [.atomE 0 []], .one⟩] [.atomE 0 []] []
    ⟨⟨[], [], .one⟩, by decide, rfl⟩ (by decide) (by decide)

/-! ### The disjoint-monomials scenario -/

/-- C8, counterexample: for three monomials with pairwise disjoint atomics,
the first of which has two distinct atomics, the search does *not* return
the full set of distinct atomics — a hitting set needs only one atomic per
monomial, so the strictly smaller count wins. -/
theorem scenario_disjoint_counterexample :
    (∀ a ∈ disjM1.atomics, a ∉ disjM2.atomics ∧ a ∉ disjM3.atomics) ∧
    (∀ a ∈ disjM2.atomics, a ∉ disjM3.atomics) ∧
    find_optimal_atomics [disjM1, disjM2, disjM3] []
      ≠ atomicsOf [disjM1, disjM2, disjM3] := by decide

/-- C8, amended: for three monomials with pairwise disjoint atomics *each
consisting of a single atomic*, the optimal atomics are the full set of
distinct atomics (one per monomial, in order), and the factorisation
rewrite returns the three monomials unchanged. -/
theorem scenario_disjoint_singletons (x y z r1 r2 r3 : GExpr) (s A : List Index)
    (hxy : x ≠ y) (hxz : x ≠ z) (hyz : y ≠ z) :
    find_optimal_atomics [⟨s, [x], r1⟩, ⟨s, [y], r2⟩, ⟨s, [z], r3⟩] A
      = [x, y, z] ∧
    factorise_atomics [⟨s, [x], r1⟩, ⟨s, [y], r2⟩, ⟨s, [z], r3⟩] [x, y, z] A
      = .ok [⟨s, [x], r1⟩, ⟨s, [y], r2⟩, ⟨s, [z], r3⟩] := by
  have hyx : ¬ (y = x) := fun h => hxy h.symm
  have hzx : ¬ (z = x) := fun h => hxz h.symm
  have hzy : ¬ (z = y) := fun h => hyz h.symm
  constructor
  · have hatoms : atomicsOf [⟨s, [x], r1⟩, ⟨s, [y], r2⟩, ⟨s, [z], r3⟩]
        = [x, y, z] := by
      simp [atomicsOf, dedupF, hyx, hzx, hzy]
    have hset : ({z, y, x} : Finset GExpr) = {x, y, z} := by
      ext a; simp; tauto
    have hcc : costLt (cost A ({x, y, z} : Finset GExpr)) (cost A {x, y, z})
        ↔ False := iff_false_intro (costLt_irrefl _)
    have hrun : searchRun [⟨s, [x], r1⟩, ⟨s, [y], r2⟩, ⟨s, [z], r3⟩] A
        = .ok ⟨[x, y, z].toFinset, 1⟩ := by
      unfold searchRun
      rw [hatoms]
      simp [Finset.mem_insert, hyx, hzx, hzy, Finset.card_insert_of_not_mem,
        hxy, hxz, hyz, hset, hcc, maxIt, solve, branchLoop, hitB]
    unfold find_optimal_atomics finalState
    rw [hrun, hatoms]
    simp
  · simp [factorise_atomics, factoriseWith, totalAtoms, mapOptM, keyOf,
      groupbyF, dedupF, goGroups, residuals, buildMonomial, optimiseF,
      find_optimal_atomics, finalState, searchRun, solve, branchLoop, hitB,
      atomicsOf, hxy, hxz, hyz, hyx, hzx, hzy]

theorem scenario_disjoint_singletons_witness :
    find_optimal_atomics
      [⟨[], [.atomE 10 []], .one⟩, ⟨[], [.atomE 11 []], .one⟩,
        ⟨[], [.atomE 12 []], .one⟩] []
      = [.atomE 10 [], .atomE 11 [], .atomE 12 []] ∧
    factorise_atomics
      [⟨[], [.atomE 10 []], .one⟩, ⟨[], [.atomE 11 []], .one⟩,
        ⟨[], [.atomE 12 []], .one⟩]
      [.atomE 10 [], .atomE 11 [], .atomE 12 []] []
      = .ok [⟨[], [.atomE 10 []], .one⟩, ⟨[], [.atomE 11 []], .one⟩,
        ⟨[], [.atomE 12 []], .one⟩] :=
  scenario_disjoint_singletons (.atomE 10 []) (.atomE 11 []) (.atomE 12 [])
    .one .one .one [] [] (by decide) (by decide) (by decide)

set_option maxRecDepth 4000 in
set_option maxHeartbeats 4000000 in
theorem find_optimal_atomics_budget_witness :
    maxIt = 4096 ∧
    (finalState budgetExample []).count = maxIt ∧
    find_optimal_atomics budgetExample []
      = (atomicsOf budgetExample).filter
          (fun a => a ∈ (finalState budgetExample []).optimal) ∧
    isHitting budgetExample (find_optimal_atomics budgetExample []) :=
  find_optimal_atomics_budget budgetExample [] (by decide) (by decide)

end Coffee
